import Mathlib

/-!
Verification development for `prune-globals.js`, a script that documents which
`window.* = ...` assignments (listed after a `// Temporary globals` comment) are
used by other files of a source directory, rewriting each assignment line with a
usage comment or commenting it out when no use is found.

Text is modelled as `List Char`; JavaScript maps (plain objects keyed by file
path, iterated in insertion order) are modelled as association lists; code that
can throw (the `specifier.imported.name` access, which faults on non-named
specifiers of imports) runs in `Except Unit`.  The external collaborators
(`fs.readdir`/`fs.readFileSync`, `espree.parse`) are parameters of the model.
-/

set_option autoImplicit false

namespace PruneGlobals

/-- File text and identifiers: JavaScript strings, modelled as lists of characters. -/
abbrev Str := List Char

instance {ε α : Type} [DecidableEq ε] [DecidableEq α] : DecidableEq (Except ε α) :=
  fun a b =>
    match a, b with
    | .ok x, .ok y =>
      if h : x = y then .isTrue (by rw [h]) else .isFalse (by intro hc; cases hc; exact h rfl)
    | .error x, .error y =>
      if h : x = y then .isTrue (by rw [h]) else .isFalse (by intro hc; cases hc; exact h rfl)
    | .ok _, .error _ => .isFalse (by intro hc; cases hc)
    | .error _, .ok _ => .isFalse (by intro hc; cases hc)

/-- `leadsWith needle hay` is true when `needle` is an initial segment of `hay`
(the primitive under `String.prototype.indexOf` and literal regex fragments). -/
def leadsWith : Str → Str → Bool
  | [], _ => true
  | _ :: _, [] => false
  | c :: cs, d :: ds => c = d && leadsWith cs ds

/-- First index at which `needle` occurs in `hay`; models `String.prototype.indexOf`
(which returns -1, modelled as `none`, when there is no occurrence). -/
def indexOfSub (needle : Str) : Str → Option Nat
  | [] => if leadsWith needle [] then some 0 else none
  | c :: t => if leadsWith needle (c :: t) then some 0 else (indexOfSub needle t).map (· + 1)

/-- One token of the espree token stream (`tokens: true`): its `type` tag
(for example "Identifier", "Punctuator", "String") and its source text `value`. -/
structure Token where
  type : Str
  value : Str
deriving DecidableEq

/-- One entry of an `ImportDeclaration`'s `specifiers` array.  A named import
specifier carries an `imported` identifier; on `ImportDefaultSpecifier` and
`ImportNamespaceSpecifier` the `imported` field is absent (`undefined`), modelled
as `none`.  Every specifier has a `local` identifier; `prune-globals.js` never
reads it, but the spec talks about it, so the model keeps it. -/
structure ImportSpecifier where
  imported : Option Str
  localName : Str
deriving DecidableEq

/-- A top-level node of the espree syntax tree, as far as `findDependencies`
inspects it: it only asks whether `node.type === "ImportDeclaration"` and, when
it is, walks `node.specifiers`; every other node kind is opaque. -/
inductive Node where
  | importDecl (specifiers : List ImportSpecifier)
  | other
deriving DecidableEq

/-- The result of `espree.parse(upperContent, { ..., tokens: true })`: the
top-level `body` and the flat token stream. -/
structure Tree where
  body : List Node
  tokens : List Token
deriving DecidableEq

/-- Inner loop of the import check of `findDependencies` (part_000 lines 66-72):
walk `node.specifiers`, reading `specifier.imported.name` on each; a specifier
whose `imported` field is absent makes the access throw (`.error ()`); on the
first specifier whose imported name equals `identifier` the loop breaks with
`foundImport = true`. -/
def checkSpecifiers (identifier : Str) : List ImportSpecifier → Except Unit Bool
  | [] => .ok false
  | sp :: rest =>
    match sp.imported with
    | none => .error ()
    | some n => if n = identifier then .ok true else checkSpecifiers identifier rest

/-- Outer loop of the import check of `findDependencies` (part_000 lines 63-74):
every top-level node is visited (the `break` only leaves the specifier loop), so
`foundImport` is the disjunction over all `ImportDeclaration` nodes, and a
faulting specifier access anywhere propagates. -/
def checkImports (identifier : Str) : List Node → Except Unit Bool
  | [] => .ok false
  | node :: rest =>
    match node with
    | .importDecl specifiers =>
      match checkSpecifiers identifier specifiers with
      | .error e => .error e
      | .ok b =>
        match checkImports identifier rest with
        | .error e => .error e
        | .ok b2 => .ok (b || b2)
    | .other => checkImports identifier rest

/-- Token scan of `findDependencies` (part_000 lines 81-88): the file is a hit
when some token has `type === "Identifier"` and `value === identifier` (the code
breaks at the first hit; only existence matters). -/
def tokenMatch (identifier : Str) (tokens : List Token) : Bool :=
  tokens.any (fun t => t.type = ("Identifier".toList : Str) && t.value = identifier)

/-- `findDependencies(identifier, fileContentTree, excludeFiles)` (part_000 lines
55-91): iterate the file models in corpus order, skip excluded files, skip files
whose import check finds `identifier`, and record each remaining file whose token
stream contains an `Identifier` token equal to `identifier`. -/
def findDependencies (identifier : Str) : List (Str × Tree) → List Str → Except Unit (List Str)
  | [], _ => .ok []
  | (filePath, tree) :: rest, excludeFiles =>
    if filePath ∈ excludeFiles then
      findDependencies identifier rest excludeFiles
    else
      match checkImports identifier tree.body with
      | .error e => .error e
      | .ok true => findDependencies identifier rest excludeFiles
      | .ok false =>
        match findDependencies identifier rest excludeFiles with
        | .error e => .error e
        | .ok deps =>
          .ok (if tokenMatch identifier tree.tokens then filePath :: deps else deps)

/-! ### The rewrite regex

`processFiles` rewrites the lower region with
`lower.replace(/(?:\/\/\s*)?(window\.(.*?) = .*;)(\s*\/\/.*)?/g, fn)`
(part_000 lines 140-153).  The pattern is modelled exactly, component by
component, with JavaScript's backtracking semantics specialised to this pattern:

* `\s` is the JavaScript whitespace class (ASCII whitespace plus the Unicode
  space separators, NBSP, BOM and the line separators);
* `.` is any character except the four line terminators;
* `(?:\/\/\s*)?` — greedy optional: at a position starting with `//`, the
  only viable `\s*` extent is the full whitespace run (shrinking it puts a
  whitespace character where `window.` must start), and if the rest fails
  there, the group-absent alternative also fails (the position holds `/`,
  not `w`), so the whole attempt at that position fails;
* `(.*?)` — lazy: stops at the first ` = ` on the line;
* `.*;` — greedy: extends to the last `;` on the line;
* `(\s*\/\/.*)?` — greedy optional: the only viable `\s*` extent is the full
  whitespace run, after which `//` must follow, else the group matches empty.
-/

/-- JavaScript's `\s` class: ASCII whitespace, NBSP, Ogham space, the
`U+2000`-`U+200A` spaces, line/paragraph separators, narrow/medium spaces,
ideographic space and BOM. -/
def isJsWhitespace (c : Char) : Bool :=
  c = ' ' || c = '\t' || c = '\n' || c = '\r' || c = '\x0b' || c = '\x0c' ||
  c.val = 0xa0 || c.val = 0x1680 || (0x2000 ≤ c.val && c.val ≤ 0x200a) ||
  c.val = 0x2028 || c.val = 0x2029 || c.val = 0x202f || c.val = 0x205f ||
  c.val = 0x3000 || c.val = 0xfeff

/-- JavaScript's `.` (without the `s` flag): any character but a line terminator. -/
def isRegexDot (c : Char) : Bool :=
  !(c = '\n' || c = '\r' || c.val = 0x2028 || c.val = 0x2029)

/-- Lazy `(.*?) = ` step: split `u` at the first occurrence of ` = `, the
identifier capture being the characters before it (all matched by `.`,
hence none a line terminator). -/
def findAssignEq : Str → Option (Str × Str)
  | [] => none
  | c :: r =>
    if leadsWith (' ' :: '=' :: ' ' :: []) (c :: r) then some ([], r.drop 2)
    else if isRegexDot c then
      match findAssignEq r with
      | some p => some (c :: p.1, p.2)
      | none => none
    else none

/-- Greedy `.*;` step: split a line at its last `;`, returning the part up to
and including that `;` and the part after it; `none` when the line has no `;`. -/
def splitAtLastSemi : Str → Option (Str × Str)
  | [] => none
  | c :: r =>
    match splitAtLastSemi r with
    | some p => some (c :: p.1, p.2)
    | none => if c = ';' then some ((c :: []), r) else none

/-- The matched core `(window\.(.*?) = .*;)`: capture group 1 (`assignment`),
capture group 2 (`identifier`), and the input remaining after the group. -/
structure CoreData where
  assignment : Str
  identifier : Str
  rest : Str
deriving DecidableEq

/-- Match `window\.(.*?) = .*;` at the head of `s`. -/
def matchCoreAt (s : Str) : Option CoreData :=
  if leadsWith ("window.".toList) s then
    match findAssignEq (s.drop 7) with
    | none => none
    | some (ident, afterEq) =>
      let line := afterEq.takeWhile isRegexDot
      let restLine := afterEq.dropWhile isRegexDot
      match splitAtLastSemi line with
      | none => none
      | some (upToSemi, afterSemi) =>
        some ⟨"window.".toList ++ ident ++ (' ' :: '=' :: ' ' :: []) ++ upToSemi,
              ident, afterSemi ++ restLine⟩
  else none

/-- Match the optional trailing comment `(\s*\/\/.*)?` at the head of `rest`:
returns the text the group consumes (possibly empty) and the remaining input. -/
def tryMatchTrailing (rest : Str) : Str × Str :=
  let ws := rest.takeWhile isJsWhitespace
  let r1 := rest.dropWhile isJsWhitespace
  match r1 with
  | '/' :: '/' :: r2 =>
    (ws ++ '/' :: '/' :: r2.takeWhile isRegexDot, r2.dropWhile isRegexDot)
  | _ => ([], rest)

/-- A whole-pattern match at one position: the full matched substring, the two
capture groups, and the input remaining after the match. -/
structure MatchData where
  matchedText : Str
  assignment : Str
  identifier : Str
  rest : Str
deriving DecidableEq

/-- Attempt the whole pattern at the head of `s`: the optional leading
`(?:\/\/\s*)?` (tried first, greedily), then the core, then the optional
trailing comment group. -/
def tryMatchAt (s : Str) : Option MatchData :=
  match s with
  | '/' :: '/' :: r =>
    let ws := r.takeWhile isJsWhitespace
    match matchCoreAt (r.dropWhile isJsWhitespace) with
    | some core =>
      let tp := tryMatchTrailing core.rest
      some ⟨'/' :: '/' :: ws ++ core.assignment ++ tp.1, core.assignment, core.identifier, tp.2⟩
    | none => none
  | _ =>
    match matchCoreAt s with
    | some core =>
      let tp := tryMatchTrailing core.rest
      some ⟨core.assignment ++ tp.1, core.assignment, core.identifier, tp.2⟩
    | none => none

/-- One global-`replace` pass: scan left to right, try the pattern at every
position, replace each (non-overlapping, leftmost) match by the string the
replacer returns, and continue after it.  The replacer runs in `Except`
because it calls `findDependencies`.  `fuel` bounds the recursion; every step
consumes at least one character, so `fuel = s.length` (see `replaceGlobals`)
never runs out. -/
def replaceGlobalsAux (repl : Str → Str → Except Unit Str) : Nat → Str → Except Unit Str
  | _, [] => .ok []
  | 0, s => .ok s
  | fuel + 1, c :: t =>
    match tryMatchAt (c :: t) with
    | some m =>
      match repl m.assignment m.identifier with
      | .error e => .error e
      | .ok replText =>
        match replaceGlobalsAux repl fuel m.rest with
        | .error e => .error e
        | .ok tailText => .ok (replText ++ tailText)
    | none =>
      match replaceGlobalsAux repl fuel t with
      | .error e => .error e
      | .ok tailText => .ok (c :: tailText)

/-- `lower.replace(regex, fn)` (part_000 lines 140-153). -/
def replaceGlobals (repl : Str → Str → Except Unit Str) (s : Str) : Except Unit Str :=
  replaceGlobalsAux repl s.length s

/-! ### Region split, path helpers, the replacer -/

/-- The boundary marker searched for at part_000 line 115. -/
def markerText : Str := "// Temporary globals".toList

/-- Region splitter (part_000 lines 115-122): `content.indexOf("// Temporary
globals")`; when found, the upper (declaration) region is the text strictly
before the marker and the lower region is the text from the marker onward;
when absent, the whole file is upper and the lower region is empty. -/
def splitRegions (content : Str) : Str × Str :=
  match indexOfSub markerText content with
  | some startIndex => (content.take startIndex, content.drop startIndex)
  | none => (content, [])

/-- `path.join("./src", file)` for a plain directory entry: the script's
source directory prefix followed by the file name. -/
def pathJoinSrc (file : Str) : Str := "src/".toList ++ file

/-- Index of the last `.` of a file name, if any. -/
def lastDotIndex : Str → Option Nat
  | [] => none
  | c :: t =>
    match lastDotIndex t with
    | some i => some (i + 1)
    | none => if c = '.' then some 0 else none

/-- `path.extname(file)` for a plain file name (no directory separators):
the suffix from the last `.`, except that a lone leading `.` marks a dotfile
and yields the empty extension. -/
def extname (file : Str) : Str :=
  match lastDotIndex file with
  | some i => if i = 0 then [] else file.drop i
  | none => []

/-- `path.relative("./src", filePath).replace(/\\/g, "/")` (part_000 line 144)
for the joined paths this script constructs: strip the `src/` prefix and turn
backslashes into forward slashes. -/
def formatPath (filePath : Str) : Str :=
  (if leadsWith ("src/".toList) filePath then filePath.drop 4 else filePath).map
    (fun c => if c = '\\' then '/' else c)

/-- The replacer closure (part_000 lines 142-152): compute the dependency
report for the captured identifier (excluding the file being rewritten), and
produce either the bare assignment plus a `// may be used by` comment listing
the formatted paths joined by `", "`, or the assignment commented out with
`// ` and marked `// unused`. -/
def mkReplacer (fileUpperContentTree : List (Str × Tree)) (filePath : Str)
    (assignment identifier : Str) : Except Unit Str :=
  match findDependencies identifier fileUpperContentTree (filePath :: []) with
  | .error e => .error e
  | .ok dependencies =>
    let formattedPaths := List.intercalate (", ".toList) (dependencies.map formatPath)
    if dependencies.length ≠ 0 then
      .ok (assignment ++ " // may be used by ".toList ++ formattedPaths)
    else
      .ok ("// ".toList ++ assignment ++ " // unused".toList)

/-! ### processFiles -/

/-- The source-type sniff `/import .* from/` (part_000 line 126): true when
some position starts `import ` followed, on the same line, by ` from`. -/
def existsImportFrom : Str → Bool
  | [] => false
  | c :: t =>
    (leadsWith ("import ".toList) (c :: t) &&
      (indexOfSub (" from".toList) (((c :: t).drop 7).takeWhile isRegexDot)).isSome) ||
    existsImportFrom t

/-- The `sourceType` option handed to espree (part_000 line 126). -/
def sourceTypeFor (upperContent : Str) : Str :=
  if existsImportFrom upperContent then "module".toList else "script".toList

/-- The three per-file maps built in the first loop of `processFiles`
(part_000 lines 95-97): upper content, lower content, and — only for files
whose upper region parses — the syntax tree. -/
structure BuiltMaps where
  upperMap : List (Str × Str)
  lowerMap : List (Str × Str)
  treeMap : List (Str × Tree)

/-- First loop of `processFiles` (part_000 lines 105-133): for each `.js`
directory entry, read the file, split it at the marker, record upper and lower
regions, and parse the upper region (`espreeParse` models `espree.parse` with
the options of line 125-128; a parse throw is `none` and leaves the file out
of the tree map). -/
def buildMaps (espreeParse : Str → Str → Option Tree) (read : Str → Str) :
    List Str → BuiltMaps
  | [] => ⟨[], [], []⟩
  | file :: rest =>
    let maps := buildMaps espreeParse read rest
    if extname file = ".js".toList then
      let filePath := pathJoinSrc file
      let content := read filePath
      let upper := (splitRegions content).1
      let lower := (splitRegions content).2
      match espreeParse (sourceTypeFor upper) upper with
      | some tree =>
        ⟨(filePath, upper) :: maps.upperMap, (filePath, lower) :: maps.lowerMap,
         (filePath, tree) :: maps.treeMap⟩
      | none =>
        ⟨(filePath, upper) :: maps.upperMap, (filePath, lower) :: maps.lowerMap, maps.treeMap⟩
    else maps

/-- Body of the second loop of `processFiles` for one file (part_000 lines
137-154): the written content is the upper region unchanged, concatenated with
the rewritten lower region. -/
def processOne (treeMap : List (Str × Tree)) (filePath upper lower : Str) :
    Except Unit Str :=
  match replaceGlobals (mkReplacer treeMap filePath) lower with
  | .error e => .error e
  | .ok newLower => .ok (upper ++ newLower)

/-- Second loop of `processFiles` (part_000 lines 135-155): iterate
`Object.keys(fileUpperContent)` in insertion order and write each updated
content; the collected writes model the calls to `writeFile`.  The lower
region is looked up in `fileLowerContent`; by construction the key is always
present. -/
def processAll (treeMap : List (Str × Tree)) (lowerMap : List (Str × Str)) :
    List (Str × Str) → Except Unit (List (Str × Str))
  | [] => .ok []
  | (filePath, upper) :: rest =>
    match processOne treeMap filePath upper ((lowerMap.lookup filePath).getD []) with
    | .error e => .error e
    | .ok content =>
      match processAll treeMap lowerMap rest with
      | .error e => .error e
      | .ok writes => .ok ((filePath, content) :: writes)

/-- `processFiles` (part_000 lines 94-157), given the directory listing and
the external collaborators: build all file models, then rewrite every file.
The result is the list of `writeFile` calls (path, content) in order. -/
def processFiles (espreeParse : Str → Str → Option Tree) (read : Str → Str)
    (files : List Str) : Except Unit (List (Str × Str)) :=
  let maps := buildMaps espreeParse read files
  processAll maps.treeMap maps.lowerMap maps.upperMap

/-- Apply a list of writes on top of a previous read function: what the file
system contents are after a run, for feeding a second run. -/
def applyWrites (writes : List (Str × Str)) (read : Str → Str) : Str → Str :=
  fun p => (writes.lookup p).getD (read p)

/-! ### Decomposition of the lower region into unmatched gaps and matches

`segmentsOf` is a respecification of the scan of `replaceGlobalsAux`: it
records, instead of the rewritten text, the alternating structure of unmatched
text and matches.  `segSource` recovers the input, `segRewrite` the output;
both facts are proved below and ground the frame property. -/

/-- One segment of the lower region: text the scan copies verbatim, or one
regex match. -/
inductive RegionSeg where
  | keep (text : Str)
  | hit (m : MatchData)
deriving DecidableEq

/-- The scan of `replaceGlobalsAux`, recording segments instead of rewriting. -/
def segmentsAux : Nat → Str → List RegionSeg
  | _, [] => []
  | 0, s => [.keep s]
  | fuel + 1, c :: t =>
    match tryMatchAt (c :: t) with
    | some m => .hit m :: segmentsAux fuel m.rest
    | none => .keep (c :: []) :: segmentsAux fuel t

/-- Concatenation of the source text of a segment list. -/
def segSource : List RegionSeg → Str
  | [] => []
  | .keep text :: rest => text ++ segSource rest
  | .hit m :: rest => m.matchedText ++ segSource rest

/-- Concatenation of a segment list with every match replaced by the
replacer's output and every gap kept verbatim. -/
def segRewrite (repl : Str → Str → Except Unit Str) : List RegionSeg → Except Unit Str
  | [] => .ok []
  | .keep text :: rest =>
    match segRewrite repl rest with
    | .error e => .error e
    | .ok out => .ok (text ++ out)
  | .hit m :: rest =>
    match repl m.assignment m.identifier with
    | .error e => .error e
    | .ok r =>
      match segRewrite repl rest with
      | .error e => .error e
      | .ok out => .ok (r ++ out)

/-- The gap/match decomposition of a string under the rewrite pattern. -/
def segmentsOf (s : Str) : List RegionSeg := segmentsAux s.length s

/-! ### String lemmas -/

theorem leadsWith_append (pre : Str) : ∀ s : Str, leadsWith pre s = true →
    s = pre ++ s.drop pre.length := by
  induction pre with
  | nil => intro s _; simp
  | cons c cs ih =>
    intro s h
    cases s with
    | nil => simp [leadsWith] at h
    | cons d ds =>
      simp only [leadsWith, Bool.and_eq_true, decide_eq_true_eq] at h
      obtain ⟨rfl, h2⟩ := h
      simpa using ih ds h2

theorem leadsWith_of_append (pre t : Str) : leadsWith pre (pre ++ t) = true := by
  induction pre with
  | nil => simp [leadsWith]
  | cons c cs ih => simp [leadsWith, ih]

theorem indexOfSub_some (needle : Str) : ∀ (hay : Str) (i : Nat),
    indexOfSub needle hay = some i →
    leadsWith needle (hay.drop i) = true ∧ ∀ j < i, leadsWith needle (hay.drop j) = false := by
  intro hay
  induction hay with
  | nil =>
    intro i h
    simp only [indexOfSub] at h
    split at h
    · rename_i hl
      cases h
      exact ⟨hl, by omega⟩
    · cases h
  | cons c t ih =>
    intro i h
    simp only [indexOfSub] at h
    split at h
    · rename_i hl
      cases h
      exact ⟨hl, by omega⟩
    · rename_i hl
      cases hi : indexOfSub needle t with
      | none => rw [hi] at h; cases h
      | some i' =>
        rw [hi] at h
        simp only [Option.map_some'] at h
        cases h
        obtain ⟨h1, h2⟩ := ih i' hi
        refine ⟨h1, ?_⟩
        intro j hj
        cases j with
        | zero => simpa using Bool.eq_false_iff.mpr (fun hc => hl hc)
        | succ j' => exact h2 j' (by omega)

theorem indexOfSub_none (needle : Str) : ∀ hay : Str,
    indexOfSub needle hay = none → ∀ j, leadsWith needle (hay.drop j) = false := by
  intro hay
  induction hay with
  | nil =>
    intro h j
    simp only [indexOfSub] at h
    split at h
    · cases h
    · rename_i hl; simpa using Bool.eq_false_iff.mpr (fun hc => hl hc)
  | cons c t ih =>
    intro h j
    simp only [indexOfSub] at h
    split at h
    · cases h
    · rename_i hl
      cases j with
      | zero => simpa using Bool.eq_false_iff.mpr (fun hc => hl hc)
      | succ j' =>
        cases hi : indexOfSub needle t with
        | none => exact ih hi j'
        | some i' => rw [hi] at h; cases h

theorem findAssignEq_append : ∀ (u ident t : Str), findAssignEq u = some (ident, t) →
    u = ident ++ (' ' :: '=' :: ' ' :: []) ++ t := by
  intro u
  induction u with
  | nil => intro ident t h; simp [findAssignEq] at h
  | cons c r ih =>
    intro ident t h
    simp only [findAssignEq] at h
    split at h
    · rename_i hl
      cases h
      have := leadsWith_append (' ' :: '=' :: ' ' :: []) (c :: r) hl
      simpa using this
    · split at h
      · rename_i hdot
        cases hf : findAssignEq r with
        | none => rw [hf] at h; cases h
        | some p =>
          rw [hf] at h
          cases h
          have := ih p.1 p.2 (by rw [hf])
          simp [this]
      · cases h

theorem splitAtLastSemi_append : ∀ (l a b : Str), splitAtLastSemi l = some (a, b) →
    l = a ++ b ∧ a ≠ [] := by
  intro l
  induction l with
  | nil => intro a b h; simp [splitAtLastSemi] at h
  | cons c r ih =>
    intro a b h
    simp only [splitAtLastSemi] at h
    cases hs : splitAtLastSemi r with
    | some p =>
      rw [hs] at h
      simp only [Option.some.injEq, Prod.mk.injEq] at h
      obtain ⟨ha, hb⟩ := h
      obtain ⟨h1, _⟩ := ih p.1 p.2 (by rw [hs])
      subst ha hb
      constructor
      · simp [h1]
      · simp
    | none =>
      rw [hs] at h
      by_cases hc : c = ';'
      · rw [if_pos hc] at h
        simp only [Option.some.injEq, Prod.mk.injEq] at h
        obtain ⟨ha, hb⟩ := h
        subst ha hb
        simp [hc]
      · rw [if_neg hc] at h
        cases h

theorem matchCoreAt_append (s : Str) (core : CoreData) (h : matchCoreAt s = some core) :
    s = core.assignment ++ core.rest ∧ core.assignment ≠ [] := by
  simp only [matchCoreAt] at h
  split at h
  · rename_i hl
    cases hf : findAssignEq (s.drop 7) with
    | none => rw [hf] at h; cases h
    | some p =>
      rw [hf] at h
      cases hsemi : splitAtLastSemi (p.2.takeWhile isRegexDot) with
      | none => simp only [hsemi] at h; cases h
      | some q =>
        simp only [hsemi] at h
        cases h
        have h7 : s = "window.".toList ++ s.drop 7 := by
          simpa using leadsWith_append ("window.".toList) s hl
        have hfa : s.drop 7 = p.1 ++ (' ' :: '=' :: ' ' :: []) ++ p.2 :=
          findAssignEq_append _ _ _ (by rw [hf])
        have hq : p.2.takeWhile isRegexDot = q.1 ++ q.2 ∧ q.1 ≠ [] :=
          splitAtLastSemi_append _ _ _ (by rw [hsemi])
        constructor
        · simp only []
          conv_lhs => rw [h7, hfa]
          have hp2 : p.2 = p.2.takeWhile isRegexDot ++ p.2.dropWhile isRegexDot :=
            (List.takeWhile_append_dropWhile _ _).symm
          conv_lhs => rw [hp2, hq.1]
          simp
        · simp
  · cases h

theorem tryMatchTrailing_append (rest : Str) :
    rest = (tryMatchTrailing rest).1 ++ (tryMatchTrailing rest).2 := by
  simp only [tryMatchTrailing]
  have hsp : rest = rest.takeWhile isJsWhitespace ++ rest.dropWhile isJsWhitespace :=
    (List.takeWhile_append_dropWhile _ _).symm
  split
  · rename_i r2 heq
    conv_lhs => rw [hsp, heq]
    simp [List.takeWhile_append_dropWhile]
  · simp

theorem tryMatchAt_append (s : Str) (m : MatchData) (h : tryMatchAt s = some m) :
    s = m.matchedText ++ m.rest ∧ m.matchedText ≠ [] := by
  simp only [tryMatchAt] at h
  split at h
  · rename_i r
    cases hc : matchCoreAt (r.dropWhile isJsWhitespace) with
    | none => simp only [hc] at h; cases h
    | some core =>
      simp only [hc] at h
      cases h
      obtain ⟨hca, _⟩ := matchCoreAt_append _ _ hc
      have htr := tryMatchTrailing_append core.rest
      constructor
      · have hr : r = r.takeWhile isJsWhitespace ++ r.dropWhile isJsWhitespace :=
          (List.takeWhile_append_dropWhile _ _).symm
        simp only []
        conv_lhs => rw [hr, hca, htr]
        simp
      · simp
  · rename_i hns
    cases hc : matchCoreAt s with
    | none => simp only [hc] at h; cases h
    | some core =>
      simp only [hc] at h
      cases h
      obtain ⟨hca, hne⟩ := matchCoreAt_append _ _ hc
      have htr := tryMatchTrailing_append core.rest
      constructor
      · simp only []
        conv_lhs => rw [hca, htr]
        simp
      · simp only []
        intro hcontr
        exact hne (by simpa using (List.append_eq_nil.mp hcontr).1)

/-! ### Segment lemmas -/

theorem segSource_segmentsAux : ∀ (fuel : Nat) (s : Str), segSource (segmentsAux fuel s) = s := by
  intro fuel
  induction fuel with
  | zero =>
    intro s
    cases s with
    | nil => simp [segmentsAux, segSource]
    | cons c t => simp [segmentsAux, segSource]
  | succ fuel ih =>
    intro s
    cases s with
    | nil => simp [segmentsAux, segSource]
    | cons c t =>
      rw [segmentsAux]
      cases hm : tryMatchAt (c :: t) with
      | some m =>
        obtain ⟨hdec, _⟩ := tryMatchAt_append _ _ hm
        simp [segSource, ih, hdec.symm]
      | none => simp [segSource, ih]

theorem replaceGlobalsAux_eq_segRewrite (repl : Str → Str → Except Unit Str) :
    ∀ (fuel : Nat) (s : Str),
    replaceGlobalsAux repl fuel s = segRewrite repl (segmentsAux fuel s) := by
  intro fuel
  induction fuel with
  | zero =>
    intro s
    cases s with
    | nil => simp [replaceGlobalsAux, segmentsAux, segRewrite]
    | cons c t =>
      simp only [replaceGlobalsAux, segmentsAux, segRewrite]
      cases segRewrite repl [] <;> simp [segRewrite]
  | succ fuel ih =>
    intro s
    cases s with
    | nil => simp [replaceGlobalsAux, segmentsAux, segRewrite]
    | cons c t =>
      rw [replaceGlobalsAux, segmentsAux]
      cases hm : tryMatchAt (c :: t) with
      | some m =>
        simp only [segRewrite]
        cases repl m.assignment m.identifier with
        | error e => simp
        | ok r => simp [ih]
      | none =>
        simp only [segRewrite]
        rw [ih]
        cases segRewrite repl (segmentsAux fuel t) with
        | error e => simp
        | ok out => simp

theorem segmentsAux_fuel_irrel : ∀ (f1 : Nat) (s : Str) (f2 : Nat),
    s.length ≤ f1 → s.length ≤ f2 → segmentsAux f1 s = segmentsAux f2 s := by
  intro f1
  induction f1 with
  | zero =>
    intro s f2 h1 _
    have : s = [] := List.eq_nil_of_length_eq_zero (Nat.le_zero.mp h1)
    subst this
    cases f2 <;> simp [segmentsAux]
  | succ f1 ih =>
    intro s f2 h1 h2
    cases s with
    | nil => cases f2 <;> simp [segmentsAux]
    | cons c t =>
      cases f2 with
      | zero => simp at h2
      | succ f2 =>
        rw [segmentsAux, segmentsAux]
        cases hm : tryMatchAt (c :: t) with
        | some m =>
          obtain ⟨hdec, hne⟩ := tryMatchAt_append _ _ hm
          have hlen : m.rest.length ≤ t.length := by
            have hc : t.length + 1 = m.matchedText.length + m.rest.length := by
              have := congrArg List.length hdec
              simpa using this
            have hmt : 1 ≤ m.matchedText.length := by
              cases hmm : m.matchedText with
              | nil => exact absurd hmm hne
              | cons x xs => simp
            omega
          simp only [List.length_cons] at h1 h2
          have hlen1 : m.rest.length ≤ f1 := by omega
          have hlen2 : m.rest.length ≤ f2 := by omega
          simp only [ih m.rest f2 hlen1 hlen2]
        | none =>
          simp only [List.length_cons] at h1 h2
          have hlen1 : t.length ≤ f1 := by omega
          have hlen2 : t.length ≤ f2 := by omega
          simp only [ih t f2 hlen1 hlen2]

theorem replaceGlobalsAux_fuel_irrel (repl : Str → Str → Except Unit Str)
    (f1 f2 : Nat) (s : Str) (h1 : s.length ≤ f1) (h2 : s.length ≤ f2) :
    replaceGlobalsAux repl f1 s = replaceGlobalsAux repl f2 s := by
  rw [replaceGlobalsAux_eq_segRewrite, replaceGlobalsAux_eq_segRewrite,
    segmentsAux_fuel_irrel f1 s f2 h1 h2]

/-! ### findDependencies lemmas -/

/-- Characterisation of membership in a successful dependency report: a
reported path is not excluded, and some corpus entry under that path passed
the import check negatively and has a matching `Identifier` token. -/
theorem findDependencies_mem (identifier : Str) :
    ∀ (trees : List (Str × Tree)) (ex deps : List Str),
    findDependencies identifier trees ex = .ok deps →
    ∀ fp ∈ deps, fp ∉ ex ∧ ∃ t, (fp, t) ∈ trees ∧
      checkImports identifier t.body = .ok false ∧ tokenMatch identifier t.tokens = true := by
  intro trees
  induction trees with
  | nil =>
    intro ex deps h fp hfp
    simp only [findDependencies, Except.ok.injEq] at h
    subst h
    simp at hfp
  | cons pt rest ih =>
    intro ex deps h fp hfp
    obtain ⟨p, t⟩ := pt
    rw [findDependencies] at h
    by_cases hex : p ∈ ex
    · rw [if_pos hex] at h
      obtain ⟨h1, t', h2, h3, h4⟩ := ih ex deps h fp hfp
      exact ⟨h1, t', List.mem_cons_of_mem _ h2, h3, h4⟩
    · rw [if_neg hex] at h
      cases him : checkImports identifier t.body with
      | error e => rw [him] at h; cases h
      | ok b =>
        rw [him] at h
        cases b with
        | true =>
          obtain ⟨h1, t', h2, h3, h4⟩ := ih ex deps h fp hfp
          exact ⟨h1, t', List.mem_cons_of_mem _ h2, h3, h4⟩
        | false =>
          cases hrec : findDependencies identifier rest ex with
          | error e => rw [hrec] at h; cases h
          | ok deps' =>
            rw [hrec] at h
            simp only [Except.ok.injEq] at h
            subst h
            by_cases htok : tokenMatch identifier t.tokens = true
            · rw [if_pos htok] at hfp
              rcases List.mem_cons.mp hfp with hfp | hfp
              · subst hfp
                exact ⟨hex, t, List.mem_cons_self _ _, him, htok⟩
              · obtain ⟨h1, t', h2, h3, h4⟩ := ih ex deps' hrec fp hfp
                exact ⟨h1, t', List.mem_cons_of_mem _ h2, h3, h4⟩
            · rw [if_neg htok] at hfp
              obtain ⟨h1, t', h2, h3, h4⟩ := ih ex deps' hrec fp hfp
              exact ⟨h1, t', List.mem_cons_of_mem _ h2, h3, h4⟩

/-- In a list whose keys are distinct, a key determines its value. -/
theorem keyUnique {β : Type} {l : List (Str × β)} (hnd : (l.map Prod.fst).Nodup)
    {k : Str} {v w : β} (hv : (k, v) ∈ l) (hw : (k, w) ∈ l) : v = w := by
  induction l with
  | nil => simp at hv
  | cons pt rest ih =>
    obtain ⟨a, b⟩ := pt
    simp only [List.map_cons, List.nodup_cons] at hnd
    rcases List.mem_cons.mp hv with hv1 | hv1 <;> rcases List.mem_cons.mp hw with hw1 | hw1
    · cases hv1; cases hw1; rfl
    · cases hv1
      exact absurd (List.mem_map.mpr ⟨(k, w), hw1, rfl⟩) hnd.1
    · cases hw1
      exact absurd (List.mem_map.mpr ⟨(k, v), hv1, rfl⟩) hnd.1
    · exact ih hnd.2 hv1 hw1

/-- The imported names of the named import specifiers of a node list: what
the check of imports in `findDependencies` compares `identifier` against (it
reads `specifier.imported.name`, the imported name, not the local binding). -/
def importedNamesIn : List Node → List Str
  | [] => []
  | .importDecl specifiers :: rest =>
    (specifiers.filterMap (fun sp => sp.imported)) ++ importedNamesIn rest
  | .other :: rest => importedNamesIn rest

/-- The set of bindings §4.2 of the spec describes: "each named import's bound
local name".  Stated from the spec's words, to compare with what the code does. -/
def localBoundNamesIn : List Node → List Str
  | [] => []
  | .importDecl specifiers :: rest =>
    (specifiers.filter (fun sp => sp.imported.isSome)).map (fun sp => sp.localName) ++
      localBoundNamesIn rest
  | .other :: rest => localBoundNamesIn rest

/-- Every import specifier in a node list is a named import specifier
(carries an `imported` field). -/
def allNamedImports : List Node → Bool
  | [] => true
  | .importDecl specifiers :: rest =>
    specifiers.all (fun sp => sp.imported.isSome) && allNamedImports rest
  | .other :: rest => allNamedImports rest

theorem checkSpecifiers_ok_false (identifier : Str) :
    ∀ specifiers : List ImportSpecifier,
    checkSpecifiers identifier specifiers = .ok false →
    identifier ∉ specifiers.filterMap (fun sp => sp.imported) := by
  intro specifiers
  induction specifiers with
  | nil => intro _ h; simp at h
  | cons sp rest ih =>
    intro h
    rw [checkSpecifiers] at h
    cases hsi : sp.imported with
    | none => rw [hsi] at h; cases h
    | some n =>
      simp only [hsi] at h
      by_cases hn : n = identifier
      · rw [if_pos hn] at h; cases h
      · rw [if_neg hn] at h
        simp only [List.filterMap_cons, hsi]
        intro hmem
        rcases List.mem_cons.mp hmem with h1 | h1
        · exact hn h1.symm
        · exact ih h h1

theorem checkImports_ok_false (identifier : Str) :
    ∀ body : List Node, checkImports identifier body = .ok false →
    identifier ∉ importedNamesIn body := by
  intro body
  induction body with
  | nil => intro _ h; simp [importedNamesIn] at h
  | cons node rest ih =>
    intro h
    cases node with
    | importDecl specifiers =>
      rw [checkImports] at h
      cases hcs : checkSpecifiers identifier specifiers with
      | error e => rw [hcs] at h; cases h
      | ok b =>
        rw [hcs] at h
        cases hci : checkImports identifier rest with
        | error e => rw [hci] at h; cases h
        | ok b2 =>
          rw [hci] at h
          simp only [Except.ok.injEq] at h
          have hb : b = false ∧ b2 = false := by
            cases b <;> cases b2 <;> simp_all
          rw [importedNamesIn]
          simp only [List.mem_append]
          rintro (h1 | h1)
          · exact checkSpecifiers_ok_false identifier specifiers (hb.1 ▸ hcs) h1
          · exact ih (hb.2 ▸ hci) h1
    | other =>
      rw [checkImports] at h
      rw [importedNamesIn]
      exact ih h

theorem checkSpecifiers_total (identifier : Str) :
    ∀ specifiers : List ImportSpecifier,
    specifiers.all (fun sp => sp.imported.isSome) = true →
    ∃ b, checkSpecifiers identifier specifiers = .ok b := by
  intro specifiers
  induction specifiers with
  | nil => intro _; exact ⟨false, rfl⟩
  | cons sp rest ih =>
    intro h
    simp only [List.all_cons, Bool.and_eq_true] at h
    cases hsi : sp.imported with
    | none => rw [hsi] at h; simp at h
    | some n =>
      rw [checkSpecifiers]
      by_cases hn : n = identifier
      · exact ⟨true, by simp only [hsi]; rw [if_pos hn]⟩
      · obtain ⟨b, hb⟩ := ih h.2
        exact ⟨b, by simp only [hsi]; rw [if_neg hn]; exact hb⟩

theorem checkImports_total (identifier : Str) :
    ∀ body : List Node, allNamedImports body = true →
    ∃ b, checkImports identifier body = .ok b := by
  intro body
  induction body with
  | nil => intro _; exact ⟨false, rfl⟩
  | cons node rest ih =>
    intro h
    cases node with
    | importDecl specifiers =>
      rw [allNamedImports] at h
      simp only [Bool.and_eq_true] at h
      obtain ⟨b1, hb1⟩ := checkSpecifiers_total identifier specifiers h.1
      obtain ⟨b2, hb2⟩ := ih h.2
      refine ⟨b1 || b2, ?_⟩
      rw [checkImports, hb1, hb2]
    | other =>
      rw [allNamedImports] at h
      obtain ⟨b, hb⟩ := ih h
      exact ⟨b, by rw [checkImports]; exact hb⟩

/-! ### buildMaps and processAll lemmas -/

theorem pathJoinSrc_inj {a b : Str} (h : pathJoinSrc a = pathJoinSrc b) : a = b :=
  List.append_cancel_left h

/-- Every upper-map entry's value is the upper region of the file read at its key. -/
theorem buildMaps_upper_val (espreeParse : Str → Str → Option Tree) (read : Str → Str) :
    ∀ (files : List Str) (fp u : Str),
    (fp, u) ∈ (buildMaps espreeParse read files).upperMap →
    u = (splitRegions (read fp)).1 := by
  intro files
  induction files with
  | nil => intro fp u h; simp [buildMaps] at h
  | cons file rest ih =>
    intro fp u h
    rw [buildMaps] at h
    by_cases hjs : extname file = ".js".toList
    · rw [if_pos hjs] at h
      cases hp : espreeParse (sourceTypeFor (splitRegions (read (pathJoinSrc file))).1)
          (splitRegions (read (pathJoinSrc file))).1 with
      | some tree =>
        simp only [hp] at h
        rcases List.mem_cons.mp h with h1 | h1
        · obtain ⟨h2, h3⟩ := Prod.mk.injEq .. ▸ h1
          simp only [Prod.mk.injEq] at h1
          obtain ⟨rfl, rfl⟩ := h1
          rfl
        · exact ih fp u h1
      | none =>
        simp only [hp] at h
        rcases List.mem_cons.mp h with h1 | h1
        · simp only [Prod.mk.injEq] at h1
          obtain ⟨rfl, rfl⟩ := h1
          rfl
        · exact ih fp u h1
    · rw [if_neg hjs] at h
      exact ih fp u h

/-- A `.js` directory entry contributes its upper region to the upper map. -/
theorem buildMaps_upper_mem (espreeParse : Str → Str → Option Tree) (read : Str → Str) :
    ∀ (files : List Str) (file : Str), file ∈ files → extname file = ".js".toList →
    (pathJoinSrc file, (splitRegions (read (pathJoinSrc file))).1) ∈
      (buildMaps espreeParse read files).upperMap := by
  intro files
  induction files with
  | nil => intro file h; simp at h
  | cons g rest ih =>
    intro file hmem hjs
    rw [buildMaps]
    rcases List.mem_cons.mp hmem with h1 | h1
    · subst h1
      rw [if_pos hjs]
      cases hp : espreeParse (sourceTypeFor (splitRegions (read (pathJoinSrc file))).1)
          (splitRegions (read (pathJoinSrc file))).1 with
      | some tree => simp [hp]
      | none => simp [hp]
    · by_cases hgjs : extname g = ".js".toList
      · rw [if_pos hgjs]
        cases hp : espreeParse (sourceTypeFor (splitRegions (read (pathJoinSrc g))).1)
            (splitRegions (read (pathJoinSrc g))).1 with
        | some tree => simp only [hp]; exact List.mem_cons_of_mem _ (ih file h1 hjs)
        | none => simp only [hp]; exact List.mem_cons_of_mem _ (ih file h1 hjs)
      · rw [if_neg hgjs]
        exact ih file h1 hjs

/-- The lower map associates to a `.js` file's path its lower region (first
entry wins; duplicates of a directory entry carry the same value). -/
theorem buildMaps_lower_lookup (espreeParse : Str → Str → Option Tree) (read : Str → Str) :
    ∀ (files : List Str) (file : Str), file ∈ files → extname file = ".js".toList →
    (buildMaps espreeParse read files).lowerMap.lookup (pathJoinSrc file) =
      some ((splitRegions (read (pathJoinSrc file))).2) := by
  intro files
  induction files with
  | nil => intro file h; simp at h
  | cons g rest ih =>
    intro file hmem hjs
    rw [buildMaps]
    by_cases hgjs : extname g = ".js".toList
    · rw [if_pos hgjs]
      by_cases hgf : pathJoinSrc g = pathJoinSrc file
      · have hg : g = file := pathJoinSrc_inj hgf
        subst hg
        cases hp : espreeParse (sourceTypeFor (splitRegions (read (pathJoinSrc g))).1)
            (splitRegions (read (pathJoinSrc g))).1 with
        | some tree => simp [hp, List.lookup]
        | none => simp [hp, List.lookup]
      · have h1 : file ∈ rest := by
          rcases List.mem_cons.mp hmem with h2 | h2
          · exact absurd (h2 ▸ rfl) hgf
          · exact h2
        have hbeq : (pathJoinSrc file == pathJoinSrc g) = false := by
          simp only [beq_eq_false_iff_ne, ne_eq]
          intro hc
          exact hgf hc.symm
        cases hp : espreeParse (sourceTypeFor (splitRegions (read (pathJoinSrc g))).1)
            (splitRegions (read (pathJoinSrc g))).1 with
        | some tree => simp only [hp, List.lookup, hbeq]; exact ih file h1 hjs
        | none => simp only [hp, List.lookup, hbeq]; exact ih file h1 hjs
    · rw [if_neg hgjs]
      rcases List.mem_cons.mp hmem with h2 | h2
      · exact absurd (h2 ▸ hjs) hgjs
      · exact ih file h2 hjs

/-- A `.js` file whose upper region does not parse has no tree-map entry. -/
theorem buildMaps_tree_not_mem (espreeParse : Str → Str → Option Tree) (read : Str → Str) :
    ∀ (files : List Str) (file : Str), extname file = ".js".toList →
    espreeParse (sourceTypeFor (splitRegions (read (pathJoinSrc file))).1)
      (splitRegions (read (pathJoinSrc file))).1 = none →
    ∀ t : Tree, (pathJoinSrc file, t) ∉ (buildMaps espreeParse read files).treeMap := by
  intro files
  induction files with
  | nil => intro file _ _ t h; simp [buildMaps] at h
  | cons g rest ih =>
    intro file hjs hfail t h
    rw [buildMaps] at h
    by_cases hgjs : extname g = ".js".toList
    · rw [if_pos hgjs] at h
      cases hp : espreeParse (sourceTypeFor (splitRegions (read (pathJoinSrc g))).1)
          (splitRegions (read (pathJoinSrc g))).1 with
      | some tree =>
        simp only [hp] at h
        rcases List.mem_cons.mp h with h1 | h1
        · simp only [Prod.mk.injEq] at h1
          have hg : file = g := pathJoinSrc_inj h1.1
          subst hg
          rw [hfail] at hp
          cases hp
        · exact ih file hjs hfail t h1
      | none =>
        simp only [hp] at h
        exact ih file hjs hfail t h
    · rw [if_neg hgjs] at h
      exact ih file hjs hfail t h

/-- Every tree-map entry is keyed by a `.js` file of the listing. -/
theorem buildMaps_tree_val (espreeParse : Str → Str → Option Tree) (read : Str → Str) :
    ∀ (files : List Str) (fp : Str) (t : Tree),
    (fp, t) ∈ (buildMaps espreeParse read files).treeMap →
    espreeParse (sourceTypeFor (splitRegions (read fp)).1) (splitRegions (read fp)).1 = some t := by
  intro files
  induction files with
  | nil => intro fp t h; simp [buildMaps] at h
  | cons g rest ih =>
    intro fp t h
    rw [buildMaps] at h
    by_cases hgjs : extname g = ".js".toList
    · rw [if_pos hgjs] at h
      cases hp : espreeParse (sourceTypeFor (splitRegions (read (pathJoinSrc g))).1)
          (splitRegions (read (pathJoinSrc g))).1 with
      | some tree =>
        simp only [hp] at h
        rcases List.mem_cons.mp h with h1 | h1
        · simp only [Prod.mk.injEq] at h1
          obtain ⟨rfl, rfl⟩ := h1
          exact hp
        · exact ih fp t h1
      | none =>
        simp only [hp] at h
        exact ih fp t h
    · rw [if_neg hgjs] at h
      exact ih fp t h

/-- Forward direction of the write loop: every upper-map entry gets written,
with the content produced by `processOne` on its regions. -/
theorem processAll_mem_writes (treeMap : List (Str × Tree)) (lowerMap : List (Str × Str)) :
    ∀ (upperMap writes : List (Str × Str)),
    processAll treeMap lowerMap upperMap = .ok writes →
    ∀ fp u, (fp, u) ∈ upperMap → ∃ c, (fp, c) ∈ writes ∧
      processOne treeMap fp u ((lowerMap.lookup fp).getD []) = .ok c := by
  intro upperMap
  induction upperMap with
  | nil => intro writes _ fp u h; simp at h
  | cons pu rest ih =>
    intro writes h fp u hmem
    obtain ⟨p, up⟩ := pu
    rw [processAll] at h
    cases hp1 : processOne treeMap p up ((lowerMap.lookup p).getD []) with
    | error e => rw [hp1] at h; cases h
    | ok content =>
      rw [hp1] at h
      cases hrec : processAll treeMap lowerMap rest with
      | error e => rw [hrec] at h; cases h
      | ok ws =>
        rw [hrec] at h
        simp only [Except.ok.injEq] at h
        subst h
        rcases List.mem_cons.mp hmem with h1 | h1
        · simp only [Prod.mk.injEq] at h1
          obtain ⟨rfl, rfl⟩ := h1
          exact ⟨content, List.mem_cons_self _ _, hp1⟩
        · obtain ⟨c, hc1, hc2⟩ := ih ws hrec fp u h1
          exact ⟨c, List.mem_cons_of_mem _ hc1, hc2⟩

/-- Backward direction of the write loop: every write comes from an upper-map
entry via `processOne`. -/
theorem processAll_writes_mem (treeMap : List (Str × Tree)) (lowerMap : List (Str × Str)) :
    ∀ (upperMap writes : List (Str × Str)),
    processAll treeMap lowerMap upperMap = .ok writes →
    ∀ fp c, (fp, c) ∈ writes → ∃ u, (fp, u) ∈ upperMap ∧
      processOne treeMap fp u ((lowerMap.lookup fp).getD []) = .ok c := by
  intro upperMap
  induction upperMap with
  | nil =>
    intro writes h fp c hmem
    simp only [processAll, Except.ok.injEq] at h
    subst h
    simp at hmem
  | cons pu rest ih =>
    intro writes h fp c hmem
    obtain ⟨p, up⟩ := pu
    rw [processAll] at h
    cases hp1 : processOne treeMap p up ((lowerMap.lookup p).getD []) with
    | error e => rw [hp1] at h; cases h
    | ok content =>
      rw [hp1] at h
      cases hrec : processAll treeMap lowerMap rest with
      | error e => rw [hrec] at h; cases h
      | ok ws =>
        rw [hrec] at h
        simp only [Except.ok.injEq] at h
        subst h
        rcases List.mem_cons.mp hmem with h1 | h1
        · simp only [Prod.mk.injEq] at h1
          obtain ⟨rfl, rfl⟩ := h1
          exact ⟨up, List.mem_cons_self _ _, hp1⟩
        · obtain ⟨u, hu1, hu2⟩ := ih ws hrec fp c h1
          exact ⟨u, List.mem_cons_of_mem _ hu1, hu2⟩

/-! ### Concrete fixtures

Small corpora used to exercise the model: realistic espree trees/token streams
for the file contents named, and oracle functions standing for the external
parser and file system. -/

def pA : Str := "src/a.js".toList

def pB : Str := "src/b.js".toList

def pC : Str := "src/c.js".toList

def upperA : Str := "foo();\n".toList

/-- espree tree of `foo();\n`. -/
def treeA : Tree :=
  ⟨[.other],
   [⟨"Identifier".toList, "foo".toList⟩, ⟨"Punctuator".toList, "(".toList⟩,
    ⟨"Punctuator".toList, ")".toList⟩, ⟨"Punctuator".toList, ";".toList⟩]⟩

/-- espree tree of the empty program. -/
def emptyTree : Tree := ⟨[], []⟩

/-- Parser oracle: parses `foo();\n` and the empty program, fails on anything
else (in particular on the unparseable `oops(`). -/
def espree0 (_sourceType text : Str) : Option Tree :=
  if text = upperA then some treeA else if text = [] then some emptyTree else none

/-- b.js before the first run: its whole content is annotation region (the
marker is at index 0), holding a bare `//` line and a commented-out assignment. -/
def contentB1 : Str := "// Temporary globals\n//\n// window.foo = 1;\n".toList

/-- b.js after the first run: the assignment was uncommented (foo is used by
a.js) and given a usage comment; the bare `//` line survived. -/
def contentB2 : Str :=
  "// Temporary globals\n//\nwindow.foo = 1; // may be used by a.js\n".toList

/-- b.js after the second run: the bare `//` line and its newline were absorbed
into the match (`\s*` crosses line terminators) and deleted. -/
def contentB3 : Str :=
  "// Temporary globals\nwindow.foo = 1; // may be used by a.js\n".toList

def read1 (p : Str) : Str := if p = pA then upperA else if p = pB then contentB1 else []

def files0 : List Str := ["a.js".toList, "b.js".toList]

def firstRunWrites : List (Str × Str) := [(pA, upperA), (pB, contentB2)]

def secondRunWrites : List (Str × Str) := [(pA, upperA), (pB, contentB3)]

/-- Unparseable content for c.js (no marker, so all of it is declaration region). -/
def contentC : Str := "oops(".toList

def read3 (p : Str) : Str := if p = pA then upperA else if p = pC then contentC else []

def files1 : List Str := ["a.js".toList, "c.js".toList]

/-- espree tree of `import { foo } from 'm';`. -/
def fooImportTree : Tree :=
  ⟨[.importDecl [⟨some "foo".toList, "foo".toList⟩]],
   [⟨"Keyword".toList, "import".toList⟩, ⟨"Punctuator".toList, "\x7b".toList⟩,
    ⟨"Identifier".toList, "foo".toList⟩, ⟨"Punctuator".toList, "\x7d".toList⟩,
    ⟨"Identifier".toList, "from".toList⟩, ⟨"String".toList, "\x27m\x27".toList⟩,
    ⟨"Punctuator".toList, ";".toList⟩]⟩

/-- espree tree of `import { a as b } from 'm';`: the specifier's imported name
is `a`, its local binding is `b`, and both appear as `Identifier` tokens. -/
def aliasImportTree : Tree :=
  ⟨[.importDecl [⟨some "a".toList, "b".toList⟩]],
   [⟨"Keyword".toList, "import".toList⟩, ⟨"Punctuator".toList, "\x7b".toList⟩,
    ⟨"Identifier".toList, "a".toList⟩, ⟨"Identifier".toList, "as".toList⟩,
    ⟨"Identifier".toList, "b".toList⟩, ⟨"Punctuator".toList, "\x7d".toList⟩,
    ⟨"Identifier".toList, "from".toList⟩, ⟨"String".toList, "\x27m\x27".toList⟩,
    ⟨"Punctuator".toList, ";".toList⟩]⟩

def pAlias : Str := "src/alias.js".toList

/-- espree tree of `import d from 'm';`: the lone specifier is an
`ImportDefaultSpecifier`, whose `imported` field is absent. -/
def defaultImportTree : Tree := ⟨[.importDecl [⟨none, "d".toList⟩]], []⟩

def pBad : Str := "src/d.js".toList

/-- espree tree of `log('foo'); bar;`: `foo` occurs only inside a string
literal, never as an `Identifier` token. -/
def fooStringTree : Tree :=
  ⟨[.other],
   [⟨"Identifier".toList, "log".toList⟩, ⟨"Punctuator".toList, "(".toList⟩,
    ⟨"String".toList, "\x27foo\x27".toList⟩, ⟨"Punctuator".toList, ")".toList⟩,
    ⟨"Punctuator".toList, ";".toList⟩, ⟨"Identifier".toList, "bar".toList⟩,
    ⟨"Punctuator".toList, ";".toList⟩]⟩

def pSelf : Str := "src/self.js".toList

/-- espree tree of a file using only its own global `gSelf`. -/
def selfTree : Tree := ⟨[.other], [⟨"Identifier".toList, "gSelf".toList⟩]⟩

def pUse : Str := "src/use.js".toList

def pDecl : Str := "src/decl.js".toList

/-- espree tree of a file using `gThing`. -/
def useTree : Tree := ⟨[.other], [⟨"Identifier".toList, "gThing".toList⟩]⟩

/-- An annotation-region line with a pre-existing leading comment marker and a
pre-existing trailing comment, followed by more text. -/
def s0 : Str := "// window.gThing = 5; // old note\nrest".toList

/-- The match of the rewrite pattern at the head of `s0`. -/
def m0 : MatchData :=
  ⟨"// window.gThing = 5; // old note".toList, "window.gThing = 5;".toList,
   "gThing".toList, ('\n' :: "rest".toList)⟩

/-- `markerAt content i`: the boundary marker occurs in `content` at index `i`. -/
def markerAt (content : Str) (i : Nat) : Prop :=
  leadsWith markerText (content.drop i) = true

/-! ### Claims -/

/-- C1: for every identifier and every candidate file other than the excluded
files, if the file's import bindings (the imported names its import
declarations record, which is what the import check reads) contain the
identifier, then `findDependencies` excludes that file from the dependency
report.  No hypothesis constrains the file's token stream, so the exclusion
holds even when the identifier also occurs as a bare `Identifier` token
elsewhere in the file, and the proof goes through the import-check branch,
which `continue`s before the token scan. -/
theorem importExclusion_findDependencies (identifier : Str) (trees : List (Str × Tree))
    (excludeFiles deps : List Str) (filePath : Str) (tree : Tree)
    (hnd : (trees.map Prod.fst).Nodup)
    (hmem : (filePath, tree) ∈ trees)
    (himp : identifier ∈ importedNamesIn tree.body)
    (hrun : findDependencies identifier trees excludeFiles = .ok deps) :
    filePath ∉ deps := by
  intro hfp
  obtain ⟨_, t', hmem', hchk, _⟩ :=
    findDependencies_mem identifier trees excludeFiles deps hrun filePath hfp
  have ht : t' = tree := keyUnique hnd hmem' hmem
  subst ht
  exact checkImports_ok_false identifier t'.body hchk himp

theorem importExclusion_findDependencies_witness :
    pB ∉ ([] : List Str) :=
  importExclusion_findDependencies "foo".toList [(pB, fooImportTree)] [pA] [] pB
    fooImportTree (by decide) (by decide) (by decide) (by decide)

/-- C3: for every identifier and every file of the corpus, if the identifier
never occurs in the file's declaration region as a token of kind `Identifier`
with equal text (as is the case when it occurs only inside string literals,
comments or template literals, which espree tokenises as `String`/`Template`
tokens and omits from the token stream respectively), then the file does not
appear in the dependency report. -/
theorem commentStringImmunity_findDependencies (identifier : Str) (trees : List (Str × Tree))
    (excludeFiles deps : List Str) (filePath : Str) (tree : Tree)
    (hnd : (trees.map Prod.fst).Nodup)
    (hmem : (filePath, tree) ∈ trees)
    (htok : tokenMatch identifier tree.tokens = false)
    (hrun : findDependencies identifier trees excludeFiles = .ok deps) :
    filePath ∉ deps := by
  intro hfp
  obtain ⟨_, t', hmem', _, htok'⟩ :=
    findDependencies_mem identifier trees excludeFiles deps hrun filePath hfp
  have ht : t' = tree := keyUnique hnd hmem' hmem
  subst ht
  rw [htok] at htok'
  cases htok'

theorem commentStringImmunity_findDependencies_witness :
    pC ∉ ([] : List Str) :=
  commentStringImmunity_findDependencies "foo".toList [(pC, fooStringTree)] [pA] [] pC
    fooStringTree (by decide) (by decide) (by decide) (by decide)

/-- C4: the dependency report never contains an excluded (origin) file's path,
and when no non-excluded corpus file has a matching `Identifier` token — in
particular for an identifier declared and used only within its own declaring
file — the report is empty. -/
theorem selfExclusion_findDependencies (identifier : Str) (trees : List (Str × Tree))
    (excludeFiles deps : List Str)
    (hrun : findDependencies identifier trees excludeFiles = .ok deps) :
    (∀ f ∈ excludeFiles, f ∉ deps) ∧
    ((∀ p t, (p, t) ∈ trees → p ∉ excludeFiles → tokenMatch identifier t.tokens = false) →
      deps = []) := by
  constructor
  · intro f hf hfd
    obtain ⟨hnex, _⟩ := findDependencies_mem identifier trees excludeFiles deps hrun f hfd
    exact hnex hf
  · intro hall
    rw [List.eq_nil_iff_forall_not_mem]
    intro fp hfp
    obtain ⟨hnex, t, hmem, _, htok⟩ :=
      findDependencies_mem identifier trees excludeFiles deps hrun fp hfp
    rw [hall fp t hmem hnex] at htok
    cases htok

theorem selfExclusion_findDependencies_witness :
    pSelf ∉ ([] : List Str) :=
  (selfExclusion_findDependencies "gSelf".toList [(pSelf, selfTree)] [pSelf] []
    (by decide)).1 pSelf (List.mem_singleton.mpr rfl)

/-- C6: the Region Splitter splits at the first occurrence of the boundary
marker: the two regions always concatenate to the original text; when the
marker occurs, the lower (annotation) region starts with the marker and the
upper (declaration) region lies strictly before the first occurrence — at
first occurrence index `i` they are exactly `take i` and `drop i` — and when
the marker is absent the upper region is the whole file and the lower region
is empty. -/
theorem regionSplitFirstMarker (content : Str) :
    (splitRegions content).1 ++ (splitRegions content).2 = content ∧
    ((∃ i, markerAt content i) →
      leadsWith markerText ((splitRegions content).2) = true ∧
      ∀ j < (splitRegions content).1.length, ¬ markerAt content j) ∧
    (∀ i, markerAt content i → (∀ j < i, ¬ markerAt content j) →
      (splitRegions content).1 = content.take i ∧ (splitRegions content).2 = content.drop i) ∧
    ((¬ ∃ i, markerAt content i) →
      (splitRegions content).1 = content ∧ (splitRegions content).2 = []) := by
  cases hidx : indexOfSub markerText content with
  | some i0 =>
    obtain ⟨hl0, hmin⟩ := indexOfSub_some markerText content i0 hidx
    have hsplit : splitRegions content = (content.take i0, content.drop i0) := by
      rw [splitRegions, hidx]
    rw [hsplit]
    refine ⟨List.take_append_drop i0 content, ?_, ?_, ?_⟩
    · intro _
      refine ⟨hl0, ?_⟩
      intro j hj
      have hji : j < i0 := lt_of_lt_of_le hj (List.length_take_le i0 content)
      intro hc
      have hc' : leadsWith markerText (content.drop j) = true := hc
      rw [hmin j hji] at hc'
      cases hc'
    · intro i hi hminI
      have hii : i = i0 := by
        by_contra hne
        rcases Nat.lt_or_ge i i0 with hlt | hge
        · have hi' : leadsWith markerText (content.drop i) = true := hi
          rw [hmin i hlt] at hi'
          cases hi'
        · have hlt0 : i0 < i := lt_of_le_of_ne hge (fun hc => hne hc.symm)
          exact hminI i0 hlt0 hl0
      subst hii
      exact ⟨rfl, rfl⟩
    · intro hnone
      exact absurd ⟨i0, hl0⟩ hnone
  | none =>
    have hsplit : splitRegions content = (content, []) := by
      rw [splitRegions, hidx]
    rw [hsplit]
    have hno := indexOfSub_none markerText content hidx
    refine ⟨by simp, ?_, ?_, ?_⟩
    · rintro ⟨i, hi⟩
      have hi' : leadsWith markerText (content.drop i) = true := hi
      rw [hno i] at hi'
      cases hi'
    · intro i hi
      have hi' : leadsWith markerText (content.drop i) = true := hi
      rw [hno i] at hi'
      cases hi'
    · intro _
      exact ⟨rfl, rfl⟩

instance (content : Str) (i : Nat) : Decidable (markerAt content i) := by
  unfold markerAt
  infer_instance

/-- Content with the marker at index 5 (and nowhere earlier). -/
def demoContent : Str := "a();\n// Temporary globals\nrest".toList

theorem regionSplitFirstMarker_witness :
    (splitRegions demoContent).1 = demoContent.take 5 ∧
    (splitRegions demoContent).2 = demoContent.drop 5 :=
  (regionSplitFirstMarker demoContent).2.2.1 5 (by decide) (by decide)

/-- C2: the claim that rewriting an already-annotated corpus again yields
byte-identical output fails on the code (the code's own comment at part_000
line 111 asserts idempotence as the purpose of the region split).  On the
two-file corpus `a.js = "foo();\n"`, `b.js = "// Temporary globals\n//\n//
window.foo = 1;\n"`, the first run uncomments b.js's assignment (foo is used
by a.js) and keeps the bare `//` line; on the second run the leading group
`(?:\/\/\s*)?` of the rewrite pattern absorbs the bare `//` line together
with the newline (`\s*` crosses line terminators) into the match, so the
rewrite deletes that line: the second run's output differs from the first
run's. -/
theorem annotatorSecondRunDiffers :
    processFiles espree0 read1 files0 = .ok firstRunWrites ∧
    processFiles espree0 (applyWrites firstRunWrites read1) files0 = .ok secondRunWrites ∧
    secondRunWrites ≠ firstRunWrites :=
  ⟨by decide, by decide, by decide⟩

/-- C7: at a matched position of the annotation region, the rewrite emits
exactly the canonical replacement — the bare assignment followed by
`" // may be used by "` and the comma-joined formatted report paths in report
order when the report is non-empty, or `"// "` before the assignment and
`" // unused"` after it when the report is empty — and then continues after
the match.  The matched text decomposes as leading part ++ assignment ++
trailing part, and the replacement is built from the assignment capture and
the report alone, so any pre-existing leading comment marker or trailing
comment inside the match is discarded. -/
theorem tryMatchAt_decomp (s : Str) (m : MatchData) (h : tryMatchAt s = some m) :
    ∃ lead trail, m.matchedText = lead ++ m.assignment ++ trail := by
  simp only [tryMatchAt] at h
  split at h
  · rename_i r
    cases hc : matchCoreAt (r.dropWhile isJsWhitespace) with
    | none => simp only [hc] at h; cases h
    | some core =>
      simp only [hc] at h
      cases h
      exact ⟨'/' :: '/' :: r.takeWhile isJsWhitespace, (tryMatchTrailing core.rest).1, by simp⟩
  · cases hc : matchCoreAt s with
    | none => simp only [hc] at h; cases h
    | some core =>
      simp only [hc] at h
      cases h
      exact ⟨[], (tryMatchTrailing core.rest).1, by simp⟩

theorem annotatorLineRewrite (trees : List (Str × Tree)) (filePath s : Str)
    (m : MatchData) (deps : List Str)
    (hm : tryMatchAt s = some m)
    (hdeps : findDependencies m.identifier trees (filePath :: []) = .ok deps) :
    (∃ lead trail, m.matchedText = lead ++ m.assignment ++ trail) ∧
    replaceGlobals (mkReplacer trees filePath) s =
      Except.map
        (fun tailText =>
          (if deps.length ≠ 0 then
            m.assignment ++ " // may be used by ".toList ++
              List.intercalate (", ".toList) (deps.map formatPath)
          else
            "// ".toList ++ m.assignment ++ " // unused".toList) ++ tailText)
        (replaceGlobals (mkReplacer trees filePath) m.rest) := by
  refine ⟨tryMatchAt_decomp s m hm, ?_⟩
  obtain ⟨hdec, hne⟩ := tryMatchAt_append s m hm
  cases hs : s with
  | nil => rw [hs] at hm; simp [tryMatchAt, matchCoreAt, leadsWith] at hm
  | cons c t =>
    rw [hs] at hm hdec
    have hrepl : mkReplacer trees filePath m.assignment m.identifier =
        .ok (if deps.length ≠ 0 then
          m.assignment ++ " // may be used by ".toList ++
            List.intercalate (", ".toList) (deps.map formatPath)
        else
          "// ".toList ++ m.assignment ++ " // unused".toList) := by
      simp only [mkReplacer, hdeps]
      by_cases hd : deps.length ≠ 0
      · rw [if_pos hd, if_pos hd]
      · rw [if_neg hd, if_neg hd]
    have hlen : m.rest.length ≤ t.length := by
      have hc : t.length + 1 = m.matchedText.length + m.rest.length := by
        have := congrArg List.length hdec
        simpa using this
      have hmt : 1 ≤ m.matchedText.length := by
        cases hmm : m.matchedText with
        | nil => exact absurd hmm hne
        | cons x xs => simp
      omega
    rw [replaceGlobals]
    simp only [List.length_cons]
    rw [replaceGlobalsAux]
    simp only [hm, hrepl]
    have hfuel : replaceGlobalsAux (mkReplacer trees filePath) t.length m.rest =
        replaceGlobals (mkReplacer trees filePath) m.rest :=
      replaceGlobalsAux_fuel_irrel (mkReplacer trees filePath) t.length m.rest.length
        m.rest hlen (le_refl _)
    rw [hfuel]
    cases hrest : replaceGlobals (mkReplacer trees filePath) m.rest with
    | error e => simp [Except.map]
    | ok tailText => simp [Except.map]

theorem annotatorLineRewrite_witness :
    ∃ lead trail, m0.matchedText = lead ++ m0.assignment ++ trail :=
  (annotatorLineRewrite [(pUse, useTree)] pDecl s0 m0 [pUse] (by decide) (by decide)).1

/-- The key of every upper-map entry is the joined path of a `.js` file of the
directory listing. -/
theorem buildMaps_upper_key (espreeParse : Str → Str → Option Tree) (read : Str → Str) :
    ∀ (files : List Str) (fp u : Str),
    (fp, u) ∈ (buildMaps espreeParse read files).upperMap →
    ∃ file, file ∈ files ∧ extname file = ".js".toList ∧ fp = pathJoinSrc file := by
  intro files
  induction files with
  | nil => intro fp u h; simp [buildMaps] at h
  | cons g rest ih =>
    intro fp u h
    rw [buildMaps] at h
    by_cases hgjs : extname g = ".js".toList
    · rw [if_pos hgjs] at h
      cases hp : espreeParse (sourceTypeFor (splitRegions (read (pathJoinSrc g))).1)
          (splitRegions (read (pathJoinSrc g))).1 with
      | some tree =>
        simp only [hp] at h
        rcases List.mem_cons.mp h with h1 | h1
        · simp only [Prod.mk.injEq] at h1
          exact ⟨g, List.mem_cons_self _ _, hgjs, h1.1⟩
        · obtain ⟨f, hf1, hf2, hf3⟩ := ih fp u h1
          exact ⟨f, List.mem_cons_of_mem _ hf1, hf2, hf3⟩
      | none =>
        simp only [hp] at h
        rcases List.mem_cons.mp h with h1 | h1
        · simp only [Prod.mk.injEq] at h1
          exact ⟨g, List.mem_cons_self _ _, hgjs, h1.1⟩
        · obtain ⟨f, hf1, hf2, hf3⟩ := ih fp u h1
          exact ⟨f, List.mem_cons_of_mem _ hf1, hf2, hf3⟩
    · rw [if_neg hgjs] at h
      obtain ⟨f, hf1, hf2, hf3⟩ := ih fp u h
      exact ⟨f, List.mem_cons_of_mem _ hf1, hf2, hf3⟩

/-- C8: every content written back equals the file's declaration region,
byte-for-byte unchanged, concatenated with the rewritten annotation region;
and the annotation region decomposes into segments whose concatenation is the
original annotation text, the rewrite keeping every unmatched segment verbatim
and replacing exactly the matched segments. -/
theorem frameProperty_processFiles (espreeParse : Str → Str → Option Tree)
    (read : Str → Str) (files : List Str) (writes : List (Str × Str))
    (filePath content : Str)
    (hrun : processFiles espreeParse read files = .ok writes)
    (hw : (filePath, content) ∈ writes) :
    ∃ rw,
      content = (splitRegions (read filePath)).1 ++ rw ∧
      segSource (segmentsOf ((splitRegions (read filePath)).2)) =
        (splitRegions (read filePath)).2 ∧
      segRewrite (mkReplacer (buildMaps espreeParse read files).treeMap filePath)
        (segmentsOf ((splitRegions (read filePath)).2)) = .ok rw := by
  rw [processFiles] at hrun
  obtain ⟨u, humem, hpone⟩ :=
    processAll_writes_mem (buildMaps espreeParse read files).treeMap
      (buildMaps espreeParse read files).lowerMap
      (buildMaps espreeParse read files).upperMap writes hrun filePath content hw
  have hu : u = (splitRegions (read filePath)).1 :=
    buildMaps_upper_val espreeParse read files filePath u humem
  obtain ⟨file, hf1, hf2, hf3⟩ := buildMaps_upper_key espreeParse read files filePath u humem
  have hlook : (buildMaps espreeParse read files).lowerMap.lookup filePath =
      some ((splitRegions (read filePath)).2) := by
    rw [hf3]
    exact buildMaps_lower_lookup espreeParse read files file hf1 hf2
  rw [hlook] at hpone
  rw [processOne] at hpone
  cases hrw : replaceGlobals
      (mkReplacer (buildMaps espreeParse read files).treeMap filePath)
      ((Option.getD (some ((splitRegions (read filePath)).2)) [])) with
  | error e => rw [hrw] at hpone; cases hpone
  | ok newLower =>
    rw [hrw] at hpone
    simp only [Except.ok.injEq] at hpone
    refine ⟨newLower, ?_, ?_, ?_⟩
    · rw [← hpone, hu]
    · exact segSource_segmentsAux _ _
    · have : replaceGlobals (mkReplacer (buildMaps espreeParse read files).treeMap filePath)
          ((splitRegions (read filePath)).2) = .ok newLower := by
        simpa using hrw
      rw [replaceGlobals, replaceGlobalsAux_eq_segRewrite] at this
      exact this

theorem frameProperty_processFiles_witness :
    ∃ rw,
      upperA = (splitRegions (read1 pA)).1 ++ rw ∧
      segSource (segmentsOf ((splitRegions (read1 pA)).2)) = (splitRegions (read1 pA)).2 ∧
      segRewrite (mkReplacer (buildMaps espree0 read1 files0).treeMap pA)
        (segmentsOf ((splitRegions (read1 pA)).2)) = .ok rw :=
  frameProperty_processFiles espree0 read1 files0 firstRunWrites pA upperA
    (by decide) (by decide)

/-- C9 counterexample: for the tree of `import { a as b } from 'm';`, the
bound local name `b` is among the spec's claimed binding set, yet the import
check does not exclude it (it compares against the imported name `a`), and a
file with this import is reported as depending on the global `b` because `b`
also occurs as an `Identifier` token of the import statement itself.  So the
binding set the import check uses is not the set of bound local names. -/
theorem importCheckNotLocalNames :
    ("b".toList : Str) ∈ localBoundNamesIn aliasImportTree.body ∧
    checkImports "b".toList aliasImportTree.body = .ok false ∧
    findDependencies "b".toList [(pAlias, aliasImportTree)] [] = .ok [pAlias] :=
  ⟨by decide, by decide, by decide⟩

theorem checkSpecifiers_val (identifier : Str) :
    ∀ specifiers : List ImportSpecifier,
    specifiers.all (fun sp => sp.imported.isSome) = true →
    checkSpecifiers identifier specifiers =
      .ok (decide (identifier ∈ specifiers.filterMap (fun sp => sp.imported))) := by
  intro specifiers
  induction specifiers with
  | nil => intro _; simp [checkSpecifiers]
  | cons sp rest ih =>
    intro h
    simp only [List.all_cons, Bool.and_eq_true] at h
    cases hsi : sp.imported with
    | none => rw [hsi] at h; simp at h
    | some n =>
      rw [checkSpecifiers]
      simp only [hsi, List.filterMap_cons]
      by_cases hn : n = identifier
      · rw [if_pos hn]
        subst hn
        simp
      · rw [if_neg hn, ih h.2]
        have hmem : (identifier ∈ n :: rest.filterMap (fun sp => sp.imported)) ↔
            identifier ∈ rest.filterMap (fun sp => sp.imported) := by
          simp only [List.mem_cons]
          constructor
          · rintro (h1 | h1)
            · exact absurd h1.symm hn
            · exact h1
          · exact Or.inr
        rw [decide_eq_decide.mpr hmem]

/-- C9 amended: the set of import bindings the Usage Scanner's import check
uses consists of each named import's *imported* (source/exported) name — for
`import { a as b } from ...` the name recorded for exclusion purposes is `a`,
not the bound local name `b`.  Stated for trees whose import specifiers are
all named (otherwise the check faults before finishing): the check returns
exactly whether the identifier is among the imported names. -/
theorem importCheckImportedNames (identifier : Str) (body : List Node)
    (h : allNamedImports body = true) :
    checkImports identifier body = .ok (decide (identifier ∈ importedNamesIn body)) := by
  induction body with
  | nil => simp [checkImports, importedNamesIn]
  | cons node rest ih =>
    cases node with
    | importDecl specifiers =>
      rw [allNamedImports] at h
      simp only [Bool.and_eq_true] at h
      rw [checkImports, checkSpecifiers_val identifier specifiers h.1, ih h.2,
        importedNamesIn]
      by_cases h1 : identifier ∈ specifiers.filterMap (fun sp => sp.imported) <;>
        by_cases h2 : identifier ∈ importedNamesIn rest <;>
          simp [h1, h2]
    | other =>
      rw [allNamedImports] at h
      rw [checkImports, importedNamesIn]
      exact ih h

theorem importCheckImportedNames_witness :
    checkImports "b".toList aliasImportTree.body =
      .ok (decide (("b".toList : Str) ∈ importedNamesIn aliasImportTree.body)) :=
  importCheckImportedNames "b".toList aliasImportTree.body (by decide)

/-- C10: the import check reads the `imported` field of import specifiers,
defined only for named-import specifiers; when every import specifier of
every scanned (non-excluded) corpus tree is a named import, the
undefined-field error branch is unreachable and `findDependencies` always
succeeds; and the precondition is needed: on a corpus holding a
default-import specifier the scan faults. -/
theorem scanTotalOnNamedImports (identifier : Str) (trees : List (Str × Tree))
    (excludeFiles : List Str)
    (h : ∀ p t, (p, t) ∈ trees → p ∉ excludeFiles → allNamedImports t.body = true) :
    (∃ deps, findDependencies identifier trees excludeFiles = .ok deps) ∧
    findDependencies "x".toList [(pBad, defaultImportTree)] [] = .error () := by
  refine ⟨?_, by decide⟩
  induction trees with
  | nil => exact ⟨[], rfl⟩
  | cons pt rest ih =>
    obtain ⟨p, t⟩ := pt
    have hrest : ∀ p' t', (p', t') ∈ rest → p' ∉ excludeFiles →
        allNamedImports t'.body = true :=
      fun p' t' hm => h p' t' (List.mem_cons_of_mem _ hm)
    obtain ⟨deps', hdeps'⟩ := ih hrest
    rw [findDependencies]
    by_cases hex : p ∈ excludeFiles
    · rw [if_pos hex]
      exact ⟨deps', hdeps'⟩
    · rw [if_neg hex]
      obtain ⟨b, hb⟩ := checkImports_total identifier t.body
        (h p t (List.mem_cons_self _ _) hex)
      rw [hb]
      cases b with
      | true => exact ⟨deps', hdeps'⟩
      | false =>
        rw [hdeps']
        exact ⟨if tokenMatch identifier t.tokens then p :: deps' else deps', rfl⟩

theorem scanTotalOnNamedImports_witness :
    ∃ deps, findDependencies "z".toList [(pAlias, aliasImportTree)] [] = .ok deps :=
  (scanTotalOnNamedImports "z".toList [(pAlias, aliasImportTree)] []
    (by
      intro p t hm hex
      simp only [List.mem_singleton, Prod.mk.injEq] at hm
      obtain ⟨rfl, rfl⟩ := hm
      decide)).1

/-- C5: a `.js` file whose declaration region fails to parse is absent from
the tree map, hence never appears in any successful dependency report; yet
when the run completes, its own annotation region was still rewritten and its
content (unchanged declaration region plus rewritten annotation region) still
written, and every `.js` file of the listing is written — the parse failure
prevents no other file's processing. -/
theorem parseFailureIsolation (espreeParse : Str → Str → Option Tree) (read : Str → Str)
    (files : List Str) (file : Str)
    (hjs : extname file = ".js".toList)
    (hmem : file ∈ files)
    (hfail : espreeParse (sourceTypeFor (splitRegions (read (pathJoinSrc file))).1)
      (splitRegions (read (pathJoinSrc file))).1 = none) :
    (∀ t : Tree, (pathJoinSrc file, t) ∉ (buildMaps espreeParse read files).treeMap) ∧
    (∀ (identifier : Str) (ex deps : List Str),
      findDependencies identifier (buildMaps espreeParse read files).treeMap ex = .ok deps →
      pathJoinSrc file ∉ deps) ∧
    (∀ writes : List (Str × Str), processFiles espreeParse read files = .ok writes →
      (∃ rw, replaceGlobals
          (mkReplacer (buildMaps espreeParse read files).treeMap (pathJoinSrc file))
          ((splitRegions (read (pathJoinSrc file))).2) = .ok rw ∧
        (pathJoinSrc file, (splitRegions (read (pathJoinSrc file))).1 ++ rw) ∈ writes) ∧
      (∀ g ∈ files, extname g = ".js".toList → ∃ c, (pathJoinSrc g, c) ∈ writes)) := by
  have hnotree := buildMaps_tree_not_mem espreeParse read files file hjs hfail
  refine ⟨hnotree, ?_, ?_⟩
  · intro identifier ex deps hrun hin
    obtain ⟨_, t, hmem', _, _⟩ :=
      findDependencies_mem identifier (buildMaps espreeParse read files).treeMap ex deps
        hrun (pathJoinSrc file) hin
    exact hnotree t hmem'
  · intro writes hrun
    rw [processFiles] at hrun
    constructor
    · have humem := buildMaps_upper_mem espreeParse read files file hmem hjs
      obtain ⟨c, hcw, hpone⟩ :=
        processAll_mem_writes (buildMaps espreeParse read files).treeMap
          (buildMaps espreeParse read files).lowerMap
          (buildMaps espreeParse read files).upperMap writes hrun (pathJoinSrc file)
          ((splitRegions (read (pathJoinSrc file))).1) humem
      rw [buildMaps_lower_lookup espreeParse read files file hmem hjs] at hpone
      rw [processOne] at hpone
      cases hrw : replaceGlobals
          (mkReplacer (buildMaps espreeParse read files).treeMap (pathJoinSrc file))
          ((Option.getD (some ((splitRegions (read (pathJoinSrc file))).2)) [])) with
      | error e => rw [hrw] at hpone; cases hpone
      | ok newLower =>
        rw [hrw] at hpone
        simp only [Except.ok.injEq] at hpone
        refine ⟨newLower, by simpa using hrw, ?_⟩
        rw [← hpone] at hcw
        exact hcw
    · intro g hg hgjs
      have humem := buildMaps_upper_mem espreeParse read files g hg hgjs
      obtain ⟨c, hcw, _⟩ :=
        processAll_mem_writes (buildMaps espreeParse read files).treeMap
          (buildMaps espreeParse read files).lowerMap
          (buildMaps espreeParse read files).upperMap writes hrun (pathJoinSrc g)
          ((splitRegions (read (pathJoinSrc g))).1) humem
      exact ⟨c, hcw⟩

theorem parseFailureIsolation_witness :
    (pathJoinSrc ("c.js".toList), emptyTree) ∉
      (buildMaps espree0 read3 files1).treeMap :=
  (parseFailureIsolation espree0 read3 files1 "c.js".toList (by decide) (by decide)
    (by decide)).1 emptyTree

end PruneGlobals
